import Mathlib

/-!
Verification development for the DocuScraper crawl-and-ingest pipeline.

The embedding models, from the source:
  - `normalizeUrl`, `makeLinksAbsolute`, `extractNavLinks` (src/services/proxyService.ts);
  - the deep-crawl loop `handleScan` and the worker-pool ingestion
    `handleFetchContent` (the App component).

The browser URL class (`new URL`) is modelled by an executable parser
`parseCore` covering the scheme://host/path?query#fragment fragment of URL
syntax (no userinfo, port, or dot-segment resolution), together with the
serialization `hrefCore` that `u.href` denotes.  DOM search
(DOMParser / querySelectorAll) is abstracted: the anchor list of a page and
the content pipeline of a worker are explicit parameters.
-/

set_option maxRecDepth 8000

namespace DocuScraper

/-- Whitespace test used by the label cleanup. -/
def isWs (c : Char) : Bool := c = ' ' || c = '\n' || c = '\t' || c = '\r'

/-- Boolean prefix test on character lists: `startsWithL pat s` holds when
`pat` is an initial segment of `s`. -/
def startsWithL : List Char → List Char → Bool
  | [], _ => true
  | _ :: _, [] => false
  | p :: ps, c :: cs => p = c && startsWithL ps cs

/-- Boolean substring (infix) test: `hasInfix pat s` holds when `pat` occurs
contiguously inside `s`.  Models JavaScript `String.includes`. -/
def hasInfix (pat : List Char) : List Char → Bool
  | [] => startsWithL pat []
  | c :: cs => startsWithL pat (c :: cs) || hasInfix pat cs

/-! ### The URL model

`parseCore` models the browser URL parser on the supported fragment; `none`
models a thrown TypeError.  `hrefCore` models the `href` getter,
`originCore` the `origin` getter, `host` the `hostname` getter. -/
/-- Characters allowed in the host position of our URL model. -/
def isHostChar (c : Char) : Bool :=
  !(c = '/' || c = '?' || c = '#' || c = ':' || c = ' ')

/-- Characters that continue the path (anything up to the query or fragment). -/
def isPathChar (c : Char) : Bool := !(c = '?' || c = '#')

/-- Parsed URL record: `scheme://host path query fragment`, with `path`
starting with a slash, `query` empty or starting with a question mark, and
`frag` empty or starting with a hash. -/
structure URLRec where
  scheme : List Char
  host : List Char
  path : List Char
  query : List Char
  frag : List Char
deriving Repr, DecidableEq

/-- Split the input at the first colon, requiring the literal sequence
colon-slash-slash there; returns the scheme part and the remainder. -/
def breakScheme : List Char → Option (List Char × List Char)
  | [] => none
  | c :: cs =>
    if c = ':' then
      match cs with
      | '/' :: '/' :: rest => some ([], rest)
      | _ => none
    else (breakScheme cs).map fun p => (c :: p.1, p.2)

/-- Split the query and fragment off the remainder that follows the path. -/
def parseQF (sch host path rest2 : List Char) : Option URLRec :=
  match rest2 with
  | [] => some ⟨sch, host, path, [], []⟩
  | c2 :: _ =>
    if c2 = '?' then
      some ⟨sch, host, path, rest2.takeWhile (fun d => !(d = '#')),
            rest2.dropWhile (fun d => !(d = '#'))⟩
    else some ⟨sch, host, path, [], rest2⟩

/-- Parse the part after the host: path (defaulting to the root slash),
query and fragment. -/
def parseAfterHost (sch host rest1 : List Char) : Option URLRec :=
  match rest1 with
  | [] => some ⟨sch, host, ['/'], [], []⟩
  | c :: _ =>
    if c = '/' then
      parseQF sch host (rest1.takeWhile isPathChar) (rest1.dropWhile isPathChar)
    else if c = '?' then
      some ⟨sch, host, ['/'], rest1.takeWhile (fun d => !(d = '#')),
            rest1.dropWhile (fun d => !(d = '#'))⟩
    else if c = '#' then
      some ⟨sch, host, ['/'], [], rest1⟩
    else none

/-- The URL parser (model of `new URL(s)` on absolute URLs). -/
def parseCore (cs : List Char) : Option URLRec :=
  match breakScheme cs with
  | none => none
  | some (sch, rest) =>
    if sch = [] then none
    else if !sch.all Char.isAlpha then none
    else
      let host := rest.takeWhile isHostChar
      if host = [] then none
      else parseAfterHost sch host (rest.dropWhile isHostChar)

/-- Serialization of a parsed URL (model of the `href` getter). -/
def URLRec.hrefCore (u : URLRec) : List Char :=
  u.scheme ++ ':' :: '/' :: '/' :: (u.host ++ u.path ++ u.query ++ u.frag)

/-- Model of the `origin` getter. -/
def URLRec.originCore (u : URLRec) : List Char :=
  u.scheme ++ ':' :: '/' :: '/' :: u.host

/-- Well-formedness of a URL record: exactly the shape `parseCore` outputs. -/
def URLRec.WF (u : URLRec) : Prop :=
  u.scheme ≠ [] ∧ u.scheme.all Char.isAlpha = true ∧
  u.host ≠ [] ∧ u.host.all isHostChar = true ∧
  (∃ p, u.path = '/' :: p) ∧ u.path.all isPathChar = true ∧
  (u.query = [] ∨ ∃ q, u.query = '?' :: q) ∧
  u.query.all (fun d => !(d = '#')) = true ∧
  (u.frag = [] ∨ ∃ f, u.frag = '#' :: f)

/-! ### normalizeUrl (src/services/proxyService.ts, lines 125-138) -/
/-- Core of `normalizeUrl` on a parsed record: clear the hash, then drop one
trailing slash from a non-root pathname. -/
def normalizeCore (u : URLRec) : URLRec :=
  if u.path ≠ ['/'] ∧ u.path.getLast? = some '/' then
    ⟨u.scheme, u.host, u.path.dropLast, u.query, []⟩
  else ⟨u.scheme, u.host, u.path, u.query, []⟩

/-- Model of `normalizeUrl`: on parse failure the input is returned
unchanged, otherwise the normalized record is re-serialized. -/
def normalizeUrl (url : String) : String :=
  match parseCore url.data with
  | none => url
  | some u => String.mk (normalizeCore u).hrefCore

/-! ### makeLinksAbsolute (src/services/proxyService.ts, lines 59-79) -/
/-- Drop the final path segment: model of
`pathname.replace(/\/[^/]*$/, '')` (no change when no slash is present). -/
def dropLastSeg (p : List Char) : List Char :=
  if p.contains '/' then ((p.reverse.dropWhile fun c => !(c = '/')).drop 1).reverse
  else p

/-- At the head of `s`, match the literal pattern `attr="value"` with a
double-quoted value free of double quotes; return the value and what follows
the closing quote. -/
def matchAttr (attr : List Char) (s : List Char) : Option (List Char × List Char) :=
  if startsWithL (attr ++ '=' :: '"' :: []) s then
    let rest := s.drop (attr.length + 2)
    match rest.dropWhile (fun c => !(c = '"')) with
    | '"' :: rest2 => some (rest.takeWhile (fun c => !(c = '"')), rest2)
    | _ => none
  else none

/-- Fueled single-pattern rewriter: scan left to right; at a position where
`attr="v"` matches and the guard accepts `v`, emit `attr="r v"` and resume
after the match, otherwise emit one character and move on.  Models a global
regex `String.replace`; the fuel only bounds the scan length. -/
def rwAttrF (attr : List Char) (g : List Char → Bool) (r : List Char → List Char) :
    Nat → List Char → List Char
  | 0, s => s
  | _, [] => []
  | fuel + 1, c :: cs =>
    match matchAttr attr (c :: cs) with
    | some (v, rest) =>
      if g v then attr ++ '=' :: '"' :: (r v ++ '"' :: rwAttrF attr g r fuel rest)
      else c :: rwAttrF attr g r fuel cs
    | none => c :: rwAttrF attr g r fuel cs

/-- The rewriter with enough fuel to scan the whole input. -/
def rwAttr (attr : List Char) (g : List Char → Bool) (r : List Char → List Char)
    (s : List Char) : List Char := rwAttrF attr g r s.length s

/-- Guard of the root-relative patterns. -/
def rootRel (v : List Char) : Bool := startsWithL ['/'] v

/-- Guard of the document-relative src pattern: the negative lookahead
`(?!http|\/)`. -/
def docRel (v : List Char) : Bool :=
  !(startsWithL ['h', 't', 't', 'p'] v) && !(startsWithL ['/'] v)

/-- Model of `makeLinksAbsolute`: three global regex replacements over the
input, or the input unchanged when the base URL does not parse. -/
def makeLinksAbsolute (html : String) (baseUrl : String) : String :=
  match parseCore baseUrl.data with
  | none => html
  | some u =>
    let origin := u.originCore
    let s1 := rwAttr ['s', 'r', 'c'] rootRel (fun v => origin ++ '/' :: v.drop 1) html.data
    let s2 := rwAttr ['s', 'r', 'c'] docRel
      (fun v => origin ++ '/' :: (dropLastSeg u.path ++ '/' :: v)) s1
    let s3 := rwAttr ['h', 'r', 'e', 'f'] rootRel (fun v => origin ++ '/' :: v.drop 1) s2
    String.mk s3

/-! ### extractNavLinks (src/services/proxyService.ts, lines 145-212)

The DOM part (selector search, `querySelectorAll('a')`) is abstracted: the
anchor list of a page is a parameter.  The per-anchor filtering, resolution,
same-host test, label cleanup, and dedup-by-href are modelled from the
source. -/
/-- An anchor element: its raw href attribute (if present) and text content. -/
structure Anchor where
  href : Option String
  text : String
deriving Repr, DecidableEq

/-- A discovered link, as returned by `extractNavLinks`. -/
structure Link where
  text : String
  href : String
deriving Repr, DecidableEq

/-- Model of `String.trim` for the characters we model. -/
def trimL (s : List Char) : List Char :=
  ((s.dropWhile isWs).reverse.dropWhile isWs).reverse

/-- Collapse every whitespace run into a single space (model of
`.replace(/\n/g, ' ').replace(/\s+/g, ' ')`). -/
def collapseWsAux : Bool → List Char → List Char
  | _, [] => []
  | prevWs, c :: cs =>
    if isWs c then
      if prevWs then collapseWsAux true cs else ' ' :: collapseWsAux true cs
    else c :: collapseWsAux false cs

/-- Label cleanup: trim, default to the placeholder, collapse whitespace. -/
def cleanText (s : String) : String :=
  let t := trimL s.data
  let t := if t = [] then ['U', 'n', 't', 'i', 't', 'l', 'e', 'd'] else t
  String.mk (collapseWsAux false t)

/-- Model of relative resolution `new URL(href, base)` for a document-relative
`href`: the last path segment of the base is replaced by `href` (query and
fragment split off; dot segments are not resolved in this model). -/
def resolveRelative (base : URLRec) (h : List Char) : URLRec :=
  let pathPart := h.takeWhile isPathChar
  let rest := h.dropWhile isPathChar
  match rest with
  | '?' :: _ => ⟨base.scheme, base.host, dropLastSeg base.path ++ '/' :: pathPart,
      rest.takeWhile (fun d => !(d = '#')), rest.dropWhile (fun d => !(d = '#'))⟩
  | _ => ⟨base.scheme, base.host, dropLastSeg base.path ++ '/' :: pathPart, [], rest⟩

/-- Per-anchor processing of `extractNavLinks`: skip fragment-only, script-
and mail-protocol targets; resolve protocol-relative, root-relative and
document-relative targets; keep only same-host links; clean the label and
normalize the href. -/
def procAnchor (base : URLRec) (a : Anchor) : Option Link :=
  match a.href with
  | none => none
  | some hs =>
    let h := hs.data
    if h = [] then none
    else if startsWithL ['#'] h then none
    else if startsWithL ['j', 'a', 'v', 'a', 's', 'c', 'r', 'i', 'p', 't'] h then none
    else if startsWithL ['m', 'a', 'i', 'l', 't', 'o'] h then none
    else
      let resolved : Option (List Char) :=
        if startsWithL ['/', '/'] h then some ('h' :: 't' :: 't' :: 'p' :: 's' :: ':' :: h)
        else if startsWithL ['/'] h then some (base.originCore ++ h)
        else if !(startsWithL ['h', 't', 't', 'p'] h) then
          some (resolveRelative base h).hrefCore
        else some h
      match resolved with
      | none => none
      | some r =>
        match parseCore r with
        | none => none
        | some ru =>
          if ru.host ≠ base.host then none
          else some ⟨cleanText a.text, normalizeUrl (String.mk r)⟩

/-- Deduplicate by href, keeping the first occurrence (model of the
insertion-ordered `Map`). -/
def dedupByHref (ls : List Link) : List Link :=
  ls.foldl (fun acc l => if acc.any (fun x => x.href = l.href) then acc else acc ++ [l]) []

/-- Model of `extractNavLinks`; `none` models the TypeError thrown when the
base URL does not parse. -/
def extractNavLinks (anchors : List Anchor) (baseUrl : String) : Option (List Link) :=
  match parseCore baseUrl.data with
  | none => none
  | some base => some (dedupByHref (anchors.filterMap (procAnchor base)))

/-! ### handleScan: the deep-crawl loop (src/unnamed/part_000, lines 31-109)

The crawl is a sequential loop over an explicit state.  The page fetch and
the anchors a fetched page yields are oracles (`fetchO`, `anchorsOf`); the
while-loop is fuel-indexed (the loop itself always terminates in the
source; the fuel only truncates).  `fetchAttempts` records each call of
`fetchHtml`, `enqueued` records every value ever put on the queue, the
initial seed included.  Cancellation is not modelled (runs without a stop
request). -/
/-- Crawl-loop state: the BFS queue, the visited set, the insertion-ordered
`foundLinksMap` as an association list, plus two histories used to state
invariants: all fetch attempts and all queue insertions. -/
structure ScanState where
  queue : List String
  visited : List String
  catalog : List (String × String)
  fetchAttempts : List String
  enqueued : List String
deriving Repr, DecidableEq

/-- Key membership in the ordered association list (model of `Map.has`). -/
def mapHas (m : List (String × String)) (k : String) : Bool :=
  m.any (fun p => p.1 = k)

/-- Sentinel label used for a never-catalogued seed. -/
def sentinelLabel : String := "Home / Entry"

/-- Processing of one extracted link (lines 73-84): the substring same-host
filter against the seed hostname, first-seen cataloguing, and (deep mode
only) enqueueing when the link is neither visited nor already queued. -/
def linkStep (deepScan : Bool) (hostSeed : List Char) (st : ScanState) (l : Link) :
    ScanState :=
  if ¬ hasInfix hostSeed l.href.data = true then st
  else if mapHas st.catalog l.href = true then st
  else
    let st1 : ScanState := { st with catalog := st.catalog ++ [(l.href, l.text)] }
    if deepScan = true ∧ l.href ∉ st1.visited ∧ l.href ∉ st1.queue then
      { st1 with queue := st1.queue ++ [l.href], enqueued := st1.enqueued ++ [l.href] }
    else st1

/-- One loop iteration body for the popped URL `u` (lines 56-91): skip if
visited, attempt the fetch, mark visited on success, extract links, and fold
them; a parse failure of the seed inside the per-link callback aborts the
whole link pass (it is caught by the per-page handler in the source). -/
def scanIter (anchorsOf : String → List Anchor) (fetchO : String → Option String)
    (seed : String) (deepScan : Bool) (st : ScanState) (u : String) : ScanState :=
  if u ∈ st.visited then st
  else
    let st1 : ScanState := { st with fetchAttempts := st.fetchAttempts ++ [u] }
    match fetchO u with
    | none => st1
    | some html =>
      let st2 : ScanState := { st1 with visited := st1.visited ++ [u] }
      match extractNavLinks (anchorsOf html) u with
      | none => st2
      | some links =>
        match parseCore seed.data with
        | none => st2
        | some su => links.foldl (linkStep deepScan su.host) st2

/-- The fuel-indexed while loop (line 53): run while the queue is non-empty
and the visited count is below the page budget. -/
def scanLoop (anchorsOf : String → List Anchor) (fetchO : String → Option String)
    (seed : String) (deepScan : Bool) (maxPages : Nat) : Nat → ScanState → ScanState
  | 0, st => st
  | fuel + 1, st =>
    match st.queue with
    | [] => st
    | u :: rest =>
      if st.visited.length < maxPages then
        scanLoop anchorsOf fetchO seed deepScan maxPages fuel
          (scanIter anchorsOf fetchO seed deepScan { st with queue := rest } u)
      else st

/-- Model of `handleScan`: the empty seed returns early (`if (!baseUrl)`);
otherwise run the loop from the seed-only frontier with budget 1 (shallow)
or 50 (deep), then assemble the catalog, prepending the sentinel entry when
the raw seed is not a catalog key.  Returns the final state together with
the discovered-links catalog. -/
def handleScan (anchorsOf : String → List Anchor) (fetchO : String → Option String)
    (seed : String) (deepScan : Bool) (fuel : Nat) : Option (ScanState × List Link) :=
  if seed = "" then none
  else
    let st0 : ScanState := ⟨[seed], [], [], [], [seed]⟩
    let stF := scanLoop anchorsOf fetchO seed deepScan (if deepScan then 50 else 1) fuel st0
    let allFound := stF.catalog.map (fun p => Link.mk p.2 p.1)
    let allFound :=
      if ¬ mapHas stF.catalog seed = true then Link.mk sentinelLabel seed :: allFound
      else allFound
    some (stF, allFound)

/-! ### handleFetchContent: the ingestion worker pool
(src/unnamed/part_000, lines 135-217)

Jobs are dequeued atomically from a shared queue, so each selected link is
processed exactly once; successful jobs push a success-status page, and a
failed job pushes nothing (the catch block, lines 190-195, only updates
progress counters).  Because workers interleave, the shared results array
ends up in completion order, modelled as an arbitrary permutation of the
job list.  The final reprojection (lines 209-212) maps every selected link
through a url-keyed map of the results and drops the links with no result.
The content pipeline (`extractMainContent` then `makeLinksAbsolute`, DOM
dependent) is abstracted as the `transform` parameter; a `none` fetch models
a throw anywhere inside the try block. -/
/-- Page status, from `types.ts`. -/
inductive PageStatus
  | pending
  | loading
  | success
  | error
deriving Repr, DecidableEq

/-- A scraped page, from `types.ts` (`ScrapedPage`). -/
structure ScrapedPage where
  url : String
  title : String
  content : String
  summary : Option String
  status : PageStatus
  links : List String
deriving Repr, DecidableEq

/-- The per-job body of a worker: on fetch success, a success-status page
for the link; on failure, nothing is appended to the results. -/
def processJob (transform : String → String → String) (fetchO : String → Option String)
    (link : Link) : Option ScrapedPage :=
  (fetchO link.href).map fun rawHtml =>
    ⟨link.href, link.text, transform rawHtml link.href, none, PageStatus.success, []⟩

/-- The shared results array after all workers finish, given the completion
order of the jobs. -/
def resultsFor (transform : String → String → String) (fetchO : String → Option String)
    (completionOrder : List Link) : List ScrapedPage :=
  completionOrder.filterMap (processJob transform fetchO)

/-- Lookup in the url-keyed map built from the results array (`new Map`
keeps the last binding of a key). -/
def lookupResult (results : List ScrapedPage) (url : String) : Option ScrapedPage :=
  results.reverse.find? (fun p => p.url = url)

/-- The reprojection of the results into the selected-links order, dropping
links with no corresponding result. -/
def sortPages (linksToFetch : List Link) (results : List ScrapedPage) : List ScrapedPage :=
  linksToFetch.filterMap (fun l => lookupResult results l.href)

/-- Model of `handleFetchContent` as a function of the selected links and
the order in which the workers completed the jobs. -/
def handleFetchContent (transform : String → String → String)
    (fetchO : String → Option String) (linksToFetch completionOrder : List Link) :
    List ScrapedPage :=
  sortPages linksToFetch (resultsFor transform fetchO completionOrder)

/-! ### Concrete oracles used in witnesses and counterexamples -/
/-- Oracle: pages with no anchors. -/
def anchorsNone : String → List Anchor := fun _ => []

/-- Oracle: every page holds one root-relative anchor to `/docs`. -/
def anchorsDocs : String → List Anchor := fun _ => [⟨some "/docs", "Docs"⟩]

/-- Oracle: every page holds one root-relative anchor to `/a`. -/
def anchorsA : String → List Anchor := fun _ => [⟨some "/a", "A"⟩]

/-- Oracle: every fetch succeeds with a fixed page. -/
def fetchOk : String → Option String := fun _ => some "<html>"

/-- Oracle: every fetch fails. -/
def fetchNone : String → Option String := fun _ => none

/-- Selected link fixture. -/
def linkA : Link := ⟨"A", "https://s.com/a"⟩

/-- Selected link fixture. -/
def linkB : Link := ⟨"B", "https://s.com/b"⟩

/-- Selected link fixture. -/
def linkC : Link := ⟨"C", "https://s.com/c"⟩

/-- Content pipeline that keeps the fetched markup unchanged. -/
def idTransform : String → String → String := fun h _ => h

/-- Fetch oracle that fails exactly on the second fixture link. -/
def fetchFailB : String → Option String :=
  fun u => if u = "https://s.com/b" then none else some "H"

/-- Decidable side condition for idempotence of `normalizeUrl`: after one
normalization the path must not end with a non-root trailing slash (this can
only fail when the original path ends in a double slash). -/
def stableAfterNormalize (o : Option URLRec) : Bool :=
  match o with
  | none => true
  | some u =>
    if (normalizeCore u).path ≠ ['/'] ∧ (normalizeCore u).path.getLast? = some '/' then false
    else true

/-- Invariant threaded through the per-link fold: the enqueue history has no
duplicates, every enqueued value is the seed or a catalog key, and the seed
has already been visited. -/
def FoldInv (seed : String) (st : ScanState) : Prop :=
  st.enqueued.Nodup ∧
  (∀ x ∈ st.enqueued, x = seed ∨ mapHas st.catalog x = true) ∧
  seed ∈ st.visited

/-- Invariant of the crawl loop used for the enqueue-at-most-once property. -/
def ScanInv (seed : String) (st : ScanState) : Prop :=
  st.enqueued.Nodup ∧
  (∀ x ∈ st.enqueued, x = seed ∨ mapHas st.catalog x = true) ∧
  (seed ∈ st.queue → st.queue = [seed] ∧ st.visited = []) ∧
  (seed ∉ st.queue → seed ∈ st.visited ∨ st.queue = [])

/-- Same-host invariant: every queued URL and every catalog key parses and
has the host of the seed. -/
def HostInv (hostS : List Char) (st : ScanState) : Prop :=
  (∀ x ∈ st.queue, ∃ w, parseCore x.data = some w ∧ w.host = hostS) ∧
  (∀ p ∈ st.catalog, ∃ w, parseCore (Prod.fst p).data = some w ∧ w.host = hostS)

theorem startsWithL_append (p t : List Char) : startsWithL p (p ++ t) = true := by
  induction p with
  | nil => rfl
  | cons c cs ih => simp [startsWithL, ih]

theorem startsWithL_iff (p s : List Char) :
    startsWithL p s = true ↔ ∃ t, s = p ++ t := by
  constructor
  · intro h
    induction p generalizing s with
    | nil => exact ⟨s, rfl⟩
    | cons c cs ih =>
      cases s with
      | nil => simp [startsWithL] at h
      | cons d ds =>
        simp only [startsWithL, Bool.and_eq_true, decide_eq_true_eq] at h
        obtain ⟨rfl, h2⟩ := h
        obtain ⟨t, rfl⟩ := ih ds h2
        exact ⟨t, rfl⟩
  · rintro ⟨t, rfl⟩
    exact startsWithL_append p t

theorem hasInfix_of_startsWithL (p s : List Char) (h : startsWithL p s = true) :
    hasInfix p s = true := by
  cases s with
  | nil => simpa [hasInfix] using h
  | cons c cs => simp [hasInfix, h]

theorem hasInfix_cons (p : List Char) (c : Char) (cs : List Char)
    (h : hasInfix p (c :: cs) = false) : hasInfix p cs = false := by
  simp only [hasInfix, Bool.or_eq_false_iff] at h
  exact h.2

theorem hasInfix_append_left (p a b : List Char) (h : hasInfix p b = true) :
    hasInfix p (a ++ b) = true := by
  induction a with
  | nil => simpa using h
  | cons c cs ih => simp [hasInfix, ih]

theorem hasInfix_of_mem_append (p s : List Char) (a b : List Char)
    (hs : s = a ++ p ++ b) : hasInfix p s = true := by
  subst hs
  rw [List.append_assoc]
  exact hasInfix_append_left p a (p ++ b) (hasInfix_of_startsWithL p (p ++ b) (startsWithL_append p b))

theorem takeWhile_append_of_all (p : Char → Bool) (a b : List Char)
    (h : ∀ x ∈ a, p x = true) : (a ++ b).takeWhile p = a ++ b.takeWhile p := by
  induction a with
  | nil => rfl
  | cons c cs ih =>
    have hc : p c = true := h c (by simp)
    simp only [List.cons_append, List.takeWhile_cons, hc, if_true]
    rw [ih fun x hx => h x (by simp [hx])]

theorem dropWhile_append_of_all (p : Char → Bool) (a b : List Char)
    (h : ∀ x ∈ a, p x = true) : (a ++ b).dropWhile p = b.dropWhile p := by
  induction a with
  | nil => rfl
  | cons c cs ih =>
    have hc : p c = true := h c (by simp)
    simp only [List.cons_append, List.dropWhile_cons, hc, if_true]
    exact ih fun x hx => h x (by simp [hx])

theorem takeWhile_cons_of_neg (p : Char → Bool) (c : Char) (cs : List Char)
    (h : p c = false) : (c :: cs).takeWhile p = [] := by
  simp [List.takeWhile_cons, h]

theorem dropWhile_cons_of_neg (p : Char → Bool) (c : Char) (cs : List Char)
    (h : p c = false) : (c :: cs).dropWhile p = c :: cs := by
  simp [List.dropWhile_cons, h]

theorem all_takeWhile (p : Char → Bool) (l : List Char) :
    (l.takeWhile p).all p = true := by
  induction l with
  | nil => rfl
  | cons c cs ih =>
    by_cases h : p c = true
    · simp [List.takeWhile_cons, h, ih]
    · simp only [Bool.not_eq_true] at h
      simp [List.takeWhile_cons, h]

theorem all_dropLast (p : Char → Bool) (l : List Char) (h : l.all p = true) :
    l.dropLast.all p = true := by
  have hsub : l.dropLast.Sublist l := List.dropLast_sublist l
  simp only [List.all_eq_true] at h ⊢
  exact fun x hx => h x (hsub.subset hx)

theorem breakScheme_append (s r : List Char) (h : ∀ c ∈ s, ¬ c = ':') :
    breakScheme (s ++ ':' :: '/' :: '/' :: r) = some (s, r) := by
  induction s with
  | nil => rfl
  | cons c cs ih =>
    have hc : ¬ c = ':' := h c (by simp)
    have ih2 := ih fun x hx => h x (by simp [hx])
    simp only [List.cons_append, breakScheme, if_neg hc]
    show Option.map (fun p => (c :: p.1, p.2)) (breakScheme (cs ++ ':' :: '/' :: '/' :: r))
      = some (c :: cs, r)
    rw [ih2]
    rfl

theorem scheme_no_colon (s : List Char) (h : s.all Char.isAlpha = true) :
    ∀ c ∈ s, ¬ c = ':' := by
  intro c hc he
  subst he
  simp only [List.all_eq_true] at h
  have := h ':' hc
  simp [Char.isAlpha, Char.isLower, Char.isUpper] at this

theorem parseQF_spec (sch host path query frag : List Char)
    (hq : query = [] ∨ ∃ q, query = '?' :: q)
    (hqa : query.all (fun d => !(d = '#')) = true)
    (hf : frag = [] ∨ ∃ f, frag = '#' :: f) :
    parseQF sch host path (query ++ frag) = some ⟨sch, host, path, query, frag⟩ := by
  rcases hq with hq0 | ⟨q, hqe⟩
  · subst hq0
    rcases hf with hf0 | ⟨f, hfe⟩
    · subst hf0; rfl
    · subst hfe
      simp [parseQF, if_neg (by decide : ¬ ('#' : Char) = '?')]
  · subst hqe
    have hqall : ∀ x ∈ q, (fun d => !(d = '#')) x = true := by
      intro x hx
      exact (List.all_eq_true.mp hqa) x (by simp [hx])
    have htake : (('?' :: q) ++ frag).takeWhile (fun d => !(d = '#')) = '?' :: q := by
      show ('?' :: (q ++ frag)).takeWhile (fun d => !(d = '#')) = '?' :: q
      rw [List.takeWhile_cons, if_pos (by decide)]
      rw [takeWhile_append_of_all _ q _ hqall]
      rcases hf with hf0 | ⟨f, hfe⟩
      · simp [hf0]
      · simp [hfe, takeWhile_cons_of_neg (fun d => !(d = '#')) '#' _ (by decide)]
    have hdrop : (('?' :: q) ++ frag).dropWhile (fun d => !(d = '#')) = frag := by
      rw [dropWhile_append_of_all _ ('?' :: q) _ (by
        intro x hx
        exact (List.all_eq_true.mp hqa) x (by simpa using hx))]
      rcases hf with hf0 | ⟨f, hfe⟩
      · simp [hf0]
      · simp [hfe, dropWhile_cons_of_neg (fun d => !(d = '#')) '#' _ (by decide)]
    show parseQF sch host path ('?' :: (q ++ frag)) = _
    simp only [parseQF, if_pos rfl]
    rw [show '?' :: (q ++ frag) = ('?' :: q) ++ frag from rfl, htake, hdrop]
    simp

theorem parseAfterHost_spec (sch host pp query frag : List Char)
    (hpa : ('/' :: pp).all isPathChar = true)
    (hq : query = [] ∨ ∃ q, query = '?' :: q)
    (hqa : query.all (fun d => !(d = '#')) = true)
    (hf : frag = [] ∨ ∃ f, frag = '#' :: f) :
    parseAfterHost sch host (('/' :: pp) ++ query ++ frag)
      = some ⟨sch, host, '/' :: pp, query, frag⟩ := by
  have hqf_take : (query ++ frag).takeWhile isPathChar = [] := by
    rcases hq with hq0 | ⟨q, hqe⟩
    · rcases hf with hf0 | ⟨f, hfe⟩
      · simp [hq0, hf0]
      · simp [hq0, hfe, takeWhile_cons_of_neg isPathChar '#' _ (by decide)]
    · simp [hqe, takeWhile_cons_of_neg isPathChar '?' _ (by decide)]
  have hqf_drop : (query ++ frag).dropWhile isPathChar = query ++ frag := by
    rcases hq with hq0 | ⟨q, hqe⟩
    · rcases hf with hf0 | ⟨f, hfe⟩
      · simp [hq0, hf0]
      · simp [hq0, hfe, dropWhile_cons_of_neg isPathChar '#' _ (by decide)]
    · simp [hqe, dropWhile_cons_of_neg isPathChar '?' _ (by decide)]
  have hppall : ∀ x ∈ pp, isPathChar x = true := by
    intro x hx
    exact (List.all_eq_true.mp hpa) x (by simp [hx])
  have htake : ((('/' :: pp) ++ query ++ frag)).takeWhile isPathChar = '/' :: pp := by
    rw [List.append_assoc]
    show ('/' :: (pp ++ (query ++ frag))).takeWhile isPathChar = '/' :: pp
    rw [List.takeWhile_cons, if_pos (by decide)]
    rw [takeWhile_append_of_all _ pp _ hppall, hqf_take, List.append_nil]
  have hdrop : ((('/' :: pp) ++ query ++ frag)).dropWhile isPathChar = query ++ frag := by
    rw [List.append_assoc]
    show ('/' :: (pp ++ (query ++ frag))).dropWhile isPathChar = query ++ frag
    rw [List.dropWhile_cons, if_pos (by decide)]
    rw [dropWhile_append_of_all _ pp _ hppall, hqf_drop]
  show parseAfterHost sch host ('/' :: (pp ++ query ++ frag)) = _
  simp only [parseAfterHost, if_pos rfl]
  rw [show '/' :: (pp ++ query ++ frag) = ('/' :: pp) ++ query ++ frag by
    simp [List.append_assoc]]
  rw [htake, hdrop]
  exact parseQF_spec sch host ('/' :: pp) query frag hq hqa hf

/-- Parsing is a left inverse of serialization on well-formed records. -/
theorem parseCore_hrefCore (u : URLRec) (h : u.WF) :
    parseCore u.hrefCore = some u := by
  obtain ⟨sch, host, path, query, frag⟩ := u
  obtain ⟨hs, hsa, hh, hha, ⟨pp, hp⟩, hpa, hq, hqa, hf⟩ := h
  simp only at hs hsa hh hha hp hpa hq hqa hf
  subst hp
  show parseCore (sch ++ ':' :: '/' :: '/' :: (host ++ ('/' :: pp) ++ query ++ frag))
    = _
  unfold parseCore
  rw [breakScheme_append sch _ (scheme_no_colon sch hsa)]
  have hhall : ∀ x ∈ host, isHostChar x = true := by
    intro x hx
    exact (List.all_eq_true.mp hha) x hx
  have htw : (host ++ ('/' :: pp) ++ query ++ frag).takeWhile isHostChar = host := by
    rw [List.append_assoc, List.append_assoc, takeWhile_append_of_all _ host _ hhall]
    rw [show ('/' :: pp) ++ (query ++ frag) = '/' :: (pp ++ (query ++ frag)) from rfl]
    rw [takeWhile_cons_of_neg isHostChar '/' _ (by decide), List.append_nil]
  have hdw : (host ++ ('/' :: pp) ++ query ++ frag).dropWhile isHostChar
      = ('/' :: pp) ++ query ++ frag := by
    rw [List.append_assoc, List.append_assoc, dropWhile_append_of_all _ host _ hhall]
    rw [show ('/' :: pp) ++ (query ++ frag) = '/' :: (pp ++ (query ++ frag)) from rfl]
    rw [dropWhile_cons_of_neg isHostChar '/' _ (by decide)]
    simp [List.append_assoc]
  simp only [if_neg hs, hsa, Bool.not_true, Bool.false_eq_true, if_false, htw, hdw,
    if_neg hh]
  exact parseAfterHost_spec sch host pp query frag hpa hq hqa hf

theorem dropWhile_head_false (p : Char → Bool) (l : List Char) (c : Char) (t : List Char)
    (h : l.dropWhile p = c :: t) : p c = false := by
  induction l with
  | nil => simp at h
  | cons d ds ih =>
    rw [List.dropWhile_cons] at h
    by_cases hd : p d = true
    · rw [if_pos hd] at h
      exact ih h
    · rw [if_neg hd] at h
      injection h with h1 h2
      subst h1
      simpa using hd

theorem dropWhile_hash (l : List Char) :
    l.dropWhile (fun d => !(d = '#')) = [] ∨
      ∃ t, l.dropWhile (fun d => !(d = '#')) = '#' :: t := by
  cases he : l.dropWhile (fun d => !(d = '#')) with
  | nil => exact Or.inl rfl
  | cons c t =>
    right
    have := dropWhile_head_false (fun d => !(d = '#')) l c t he
    have hc : c = '#' := by simpa using this
    exact ⟨t, by rw [hc]⟩

theorem parseQF_WF (sch host path rest2 : List Char)
    (hs : sch ≠ []) (hsa : sch.all Char.isAlpha = true)
    (hh : host ≠ []) (hha : host.all isHostChar = true)
    (hp : ∃ pp, path = '/' :: pp) (hpa : path.all isPathChar = true)
    (hr : ∀ c t, rest2 = c :: t → isPathChar c = false)
    (u : URLRec) (h : parseQF sch host path rest2 = some u) : u.WF := by
  cases rest2 with
  | nil =>
    cases h
    exact ⟨hs, hsa, hh, hha, hp, hpa, Or.inl rfl, rfl, Or.inl rfl⟩
  | cons c2 t =>
    have hc2 : isPathChar c2 = false := hr c2 t rfl
    have hc2' : c2 = '?' ∨ c2 = '#' := by
      simp only [isPathChar, Bool.not_eq_false', Bool.or_eq_true, decide_eq_true_eq] at hc2
      exact hc2
    by_cases hq : c2 = '?'
    · subst hq
      simp only [parseQF, if_pos rfl] at h
      cases h
      refine ⟨hs, hsa, hh, hha, hp, hpa, ?_, all_takeWhile _ _, dropWhile_hash _⟩
      right
      refine ⟨(t.takeWhile fun d => !(d = '#')), ?_⟩
      rw [List.takeWhile_cons, if_pos (by decide)]
    · simp only [parseQF, if_neg hq] at h
      cases h
      have hc2h : c2 = '#' := by tauto
      subst hc2h
      exact ⟨hs, hsa, hh, hha, hp, hpa, Or.inl rfl, rfl, Or.inr ⟨t, rfl⟩⟩

theorem parseAfterHost_WF (sch host rest1 : List Char)
    (hs : sch ≠ []) (hsa : sch.all Char.isAlpha = true)
    (hh : host ≠ []) (hha : host.all isHostChar = true)
    (hr : ∀ c t, rest1 = c :: t → isHostChar c = false)
    (u : URLRec) (h : parseAfterHost sch host rest1 = some u) : u.WF := by
  cases rest1 with
  | nil =>
    cases h
    exact ⟨hs, hsa, hh, hha, ⟨[], rfl⟩, rfl, Or.inl rfl, rfl, Or.inl rfl⟩
  | cons c t =>
    by_cases hslash : c = '/'
    · subst hslash
      simp only [parseAfterHost, if_pos rfl] at h
      refine parseQF_WF sch host _ _ hs hsa hh hha ?_ (all_takeWhile _ _) ?_ u h
      · refine ⟨(t.takeWhile isPathChar), ?_⟩
        rw [List.takeWhile_cons, if_pos (by decide)]
      · intro c2 t2 he
        exact dropWhile_head_false isPathChar _ c2 t2 he
    · by_cases hqm : c = '?'
      · subst hqm
        simp only [parseAfterHost, if_neg (by decide : ¬ ('?' : Char) = '/'), if_pos rfl] at h
        cases h
        refine ⟨hs, hsa, hh, hha, ⟨[], rfl⟩, rfl, ?_, all_takeWhile _ _, dropWhile_hash _⟩
        right
        refine ⟨(t.takeWhile fun d => !(d = '#')), ?_⟩
        rw [List.takeWhile_cons, if_pos (by decide)]
      · by_cases hhm : c = '#'
        · subst hhm
          simp only [parseAfterHost, if_neg (by decide : ¬ ('#' : Char) = '/'),
            if_neg (by decide : ¬ ('#' : Char) = '?'), if_pos rfl] at h
          cases h
          exact ⟨hs, hsa, hh, hha, ⟨[], rfl⟩, rfl, Or.inl rfl, rfl, Or.inr ⟨t, rfl⟩⟩
        · simp only [parseAfterHost, if_neg hslash, if_neg hqm, if_neg hhm] at h
          exact Option.noConfusion h

/-- Every successfully parsed URL record is well-formed. -/
theorem parseCore_WF (cs : List Char) (u : URLRec) (h : parseCore cs = some u) :
    u.WF := by
  unfold parseCore at h
  cases hb : breakScheme cs with
  | none => rw [hb] at h; cases h
  | some p =>
    obtain ⟨sch, rest⟩ := p
    rw [hb] at h
    dsimp only at h
    by_cases hs : sch = []
    · rw [if_pos hs] at h; cases h
    · rw [if_neg hs] at h
      by_cases hsa : sch.all Char.isAlpha = true
      · rw [hsa] at h
        simp only [Bool.not_true, Bool.false_eq_true, if_false] at h
        by_cases hhe : rest.takeWhile isHostChar = []
        · rw [if_pos hhe] at h; cases h
        · rw [if_neg hhe] at h
          exact parseAfterHost_WF sch _ _ hs hsa hhe (all_takeWhile _ _)
            (fun c t he => dropWhile_head_false isHostChar _ c t he) u h
      · have hsa' : sch.all Char.isAlpha = false := by
          simpa using hsa
        rw [hsa'] at h
        simp at h

theorem normalizeCore_host (u : URLRec) : (normalizeCore u).host = u.host := by
  unfold normalizeCore
  split <;> rfl

theorem normalizeCore_frag (u : URLRec) : (normalizeCore u).frag = [] := by
  unfold normalizeCore
  split <;> rfl

theorem normalizeCore_WF (u : URLRec) (h : u.WF) : (normalizeCore u).WF := by
  obtain ⟨hs, hsa, hh, hha, ⟨pp, hp⟩, hpa, hq, hqa, hf⟩ := h
  unfold normalizeCore
  by_cases hc : u.path ≠ ['/'] ∧ u.path.getLast? = some '/'
  · rw [if_pos hc]
    refine ⟨hs, hsa, hh, hha, ?_, all_dropLast _ _ hpa, hq, hqa, Or.inl rfl⟩
    cases pp with
    | nil => exact absurd (by rw [hp]) hc.1
    | cons x xs =>
      refine ⟨(x :: xs).dropLast, ?_⟩
      rw [hp]
      rfl
  · rw [if_neg hc]
    exact ⟨hs, hsa, hh, hha, ⟨pp, hp⟩, hpa, hq, hqa, Or.inl rfl⟩

theorem normalizeCore_id (v : URLRec) (hfr : v.frag = [])
    (hgood : ¬ (v.path ≠ ['/'] ∧ v.path.getLast? = some '/')) : normalizeCore v = v := by
  obtain ⟨s, h, p, q, f⟩ := v
  simp only at hfr
  subst hfr
  unfold normalizeCore
  rw [if_neg hgood]

theorem normalizeCore_stable (u : URLRec)
    (hgood : ¬ ((normalizeCore u).path ≠ ['/'] ∧ (normalizeCore u).path.getLast? = some '/')) :
    normalizeCore (normalizeCore u) = normalizeCore u :=
  normalizeCore_id _ (normalizeCore_frag u) hgood

theorem parse_of_normalizeUrl (s : String) (u : URLRec) (h : parseCore s.data = some u) :
    parseCore (normalizeUrl s).data = some (normalizeCore u) := by
  unfold normalizeUrl
  rw [h]
  show parseCore (normalizeCore u).hrefCore = some (normalizeCore u)
  exact parseCore_hrefCore _ (normalizeCore_WF u (parseCore_WF s.data u h))

theorem normalizeUrl_of_parse (s : String) (u : URLRec) (hp : parseCore s.data = some u) :
    normalizeUrl s = String.mk (normalizeCore u).hrefCore := by
  unfold normalizeUrl
  rw [hp]

theorem normalizeUrl_of_parse_none (s : String) (hp : parseCore s.data = none) :
    normalizeUrl s = s := by
  unfold normalizeUrl
  rw [hp]

theorem normalizeUrl_idem_aux (s : String)
    (h : stableAfterNormalize (parseCore s.data) = true) :
    normalizeUrl (normalizeUrl s) = normalizeUrl s := by
  cases hp : parseCore s.data with
  | none => rw [normalizeUrl_of_parse_none s hp, normalizeUrl_of_parse_none s hp]
  | some u =>
    rw [hp] at h
    unfold stableAfterNormalize at h
    dsimp only at h
    have hgood : ¬ ((normalizeCore u).path ≠ ['/'] ∧
        (normalizeCore u).path.getLast? = some '/') := by
      by_contra hc
      rw [if_pos hc] at h
      cases h
    rw [normalizeUrl_of_parse s u hp]
    have hwf : (normalizeCore u).WF := normalizeCore_WF u (parseCore_WF s.data u hp)
    have hp2 : parseCore (String.mk (normalizeCore u).hrefCore).data
        = some (normalizeCore u) := parseCore_hrefCore _ hwf
    rw [normalizeUrl_of_parse _ _ hp2, normalizeCore_stable u hgood]

/-! ### The rewriter touches nothing without a double-quoted trigger -/
theorem matchAttr_none_of_no_start (attr : List Char) (s : List Char)
    (h : startsWithL (attr ++ '=' :: '"' :: []) s = false) :
    matchAttr attr s = none := by
  unfold matchAttr
  rw [h]
  rfl

theorem rwAttrF_id_of_no_trigger (attr : List Char) (g : List Char → Bool)
    (r : List Char → List Char) (fuel : Nat) (s : List Char)
    (h : hasInfix (attr ++ '=' :: '"' :: []) s = false) :
    rwAttrF attr g r fuel s = s := by
  induction fuel generalizing s with
  | zero =>
    cases s with
    | nil => rfl
    | cons c cs => rfl
  | succ n ih =>
    cases s with
    | nil => rfl
    | cons c cs =>
      have hns : startsWithL (attr ++ '=' :: '"' :: []) (c :: cs) = false := by
        cases hsw : startsWithL (attr ++ '=' :: '"' :: []) (c :: cs) with
        | false => rfl
        | true =>
          have := hasInfix_of_startsWithL _ _ hsw
          rw [this] at h
          cases h
      have hm := matchAttr_none_of_no_start attr (c :: cs) hns
      simp only [rwAttrF, hm]
      rw [ih cs (hasInfix_cons _ c cs h)]

theorem rwAttr_id_of_no_trigger (attr : List Char) (g : List Char → Bool)
    (r : List Char → List Char) (s : List Char)
    (h : hasInfix (attr ++ '=' :: '"' :: []) s = false) :
    rwAttr attr g r s = s :=
  rwAttrF_id_of_no_trigger attr g r s.length s h

/-! ### Ingestion pool helper lemmas -/
theorem processJob_url (t : String → String → String) (f : String → Option String)
    (l : Link) (p : ScrapedPage) (h : processJob t f l = some p) : p.url = l.href := by
  unfold processJob at h
  cases hf : f l.href with
  | none => rw [hf] at h; cases h
  | some raw =>
    rw [hf] at h
    cases h
    rfl

theorem processJob_status (t : String → String → String) (f : String → Option String)
    (l : Link) (p : ScrapedPage) (h : processJob t f l = some p) :
    p.status = PageStatus.success := by
  unfold processJob at h
  cases hf : f l.href with
  | none => rw [hf] at h; cases h
  | some raw =>
    rw [hf] at h
    cases h
    rfl

theorem find?_eq_some_of_unique {α : Type _} (q : α → Bool) (rs : List α) (p : α)
    (hp : p ∈ rs) (hpq : q p = true) (huniq : ∀ x ∈ rs, q x = true → x = p) :
    rs.find? q = some p := by
  induction rs with
  | nil => cases hp
  | cons a tl ih =>
    by_cases ha : q a = true
    · rw [List.find?_cons_of_pos tl ha]
      rw [huniq a (by simp) ha]
    · rw [List.find?_cons_of_neg tl (by simpa using ha)]
      apply ih
      · rcases List.mem_cons.mp hp with h1 | h1
        · subst h1
          exact absurd hpq ha
        · exact h1
      · intro x hx hq
        exact huniq x (by simp [hx]) hq

theorem lookupResult_eq (t : String → String → String) (f : String → Option String)
    (links order : List Link) (hperm : order.Perm links)
    (hnodup : (links.map Link.href).Nodup) (l : Link) (hl : l ∈ links) :
    lookupResult (resultsFor t f order) l.href = processJob t f l := by
  have hinj := List.inj_on_of_nodup_map hnodup
  cases hj : processJob t f l with
  | none =>
    unfold lookupResult
    rw [List.find?_eq_none.mpr]
    intro x hx hxe
    rw [List.mem_reverse] at hx
    obtain ⟨l', hl', hj'⟩ := List.mem_filterMap.mp hx
    have hxu : x.url = l'.href := processJob_url t f l' x hj'
    have hxe' : x.url = l.href := by simpa using hxe
    have hll : l' = l := hinj (hperm.mem_iff.mp hl') hl (by rw [← hxu, hxe'])
    rw [hll, hj] at hj'
    cases hj'
  | some p =>
    unfold lookupResult
    apply find?_eq_some_of_unique
    · rw [List.mem_reverse]
      exact List.mem_filterMap.mpr ⟨l, hperm.mem_iff.mpr hl, hj⟩
    · simp [processJob_url t f l p hj]
    · intro x hx hq
      rw [List.mem_reverse] at hx
      obtain ⟨l', hl', hj'⟩ := List.mem_filterMap.mp hx
      have hxu : x.url = l'.href := processJob_url t f l' x hj'
      have hq' : x.url = l.href := by simpa using hq
      have hll : l' = l := hinj (hperm.mem_iff.mp hl') hl (by rw [← hxu, hq'])
      rw [hll, hj] at hj'
      exact (Option.some.inj hj').symm

theorem handleFetchContent_eq_filterMap (t : String → String → String)
    (f : String → Option String) (links order : List Link) (hperm : order.Perm links)
    (hnodup : (links.map Link.href).Nodup) :
    handleFetchContent t f links order = links.filterMap (processJob t f) := by
  unfold handleFetchContent sortPages
  exact List.filterMap_congr fun l hl => lookupResult_eq t f links order hperm hnodup l hl

/-! ### Crawl-loop lemmas -/
theorem linkStep_cases (d : Bool) (h : List Char) (st : ScanState) (l : Link) :
    linkStep d h st l = st ∨
    (mapHas st.catalog l.href = false ∧
      (linkStep d h st l =
        ⟨st.queue, st.visited, st.catalog ++ [(l.href, l.text)],
         st.fetchAttempts, st.enqueued⟩ ∨
       (d = true ∧ l.href ∉ st.visited ∧ l.href ∉ st.queue ∧
        linkStep d h st l =
          ⟨st.queue ++ [l.href], st.visited, st.catalog ++ [(l.href, l.text)],
           st.fetchAttempts, st.enqueued ++ [l.href]⟩))) := by
  unfold linkStep
  by_cases h1 : ¬ hasInfix h l.href.data = true
  · rw [if_pos h1]
    left
    rfl
  · rw [if_neg h1]
    by_cases h2 : mapHas st.catalog l.href = true
    · rw [if_pos h2]
      left
      rfl
    · rw [if_neg h2]
      right
      refine ⟨by simpa using h2, ?_⟩
      by_cases h3 : d = true ∧ l.href ∉ st.visited ∧ l.href ∉ st.queue
      · rw [if_pos h3]
        right
        exact ⟨h3.1, h3.2.1, h3.2.2, rfl⟩
      · rw [if_neg h3]
        left
        rfl

theorem linkStep_visited (d : Bool) (h : List Char) (st : ScanState) (l : Link) :
    (linkStep d h st l).visited = st.visited := by
  rcases linkStep_cases d h st l with he | ⟨_, he | ⟨_, _, _, he⟩⟩ <;> rw [he]

theorem linkStep_fetchAttempts (d : Bool) (h : List Char) (st : ScanState) (l : Link) :
    (linkStep d h st l).fetchAttempts = st.fetchAttempts := by
  rcases linkStep_cases d h st l with he | ⟨_, he | ⟨_, _, _, he⟩⟩ <;> rw [he]

theorem linkStep_queue_shallow (h : List Char) (st : ScanState) (l : Link) :
    (linkStep false h st l).queue = st.queue := by
  rcases linkStep_cases false h st l with he | ⟨_, he | ⟨hd, _, _, _⟩⟩
  · rw [he]
  · rw [he]
  · cases hd

theorem foldl_linkStep_visited (d : Bool) (h : List Char) (links : List Link)
    (st : ScanState) :
    (links.foldl (linkStep d h) st).visited = st.visited := by
  induction links generalizing st with
  | nil => rfl
  | cons l ls ih => rw [List.foldl_cons, ih, linkStep_visited]

theorem foldl_linkStep_fetchAttempts (d : Bool) (h : List Char) (links : List Link)
    (st : ScanState) :
    (links.foldl (linkStep d h) st).fetchAttempts = st.fetchAttempts := by
  induction links generalizing st with
  | nil => rfl
  | cons l ls ih => rw [List.foldl_cons, ih, linkStep_fetchAttempts]

theorem foldl_linkStep_queue_shallow (h : List Char) (links : List Link)
    (st : ScanState) :
    (links.foldl (linkStep false h) st).queue = st.queue := by
  induction links generalizing st with
  | nil => rfl
  | cons l ls ih => rw [List.foldl_cons, ih, linkStep_queue_shallow]

theorem scanIter_visited_le (anchorsOf : String → List Anchor)
    (fetchO : String → Option String) (seed : String) (d : Bool)
    (st : ScanState) (u : String) :
    (scanIter anchorsOf fetchO seed d st u).visited.length ≤ st.visited.length + 1 := by
  unfold scanIter
  split
  · omega
  · split
    · simp
    · split
      · simp
      · split
        · simp
        · rw [foldl_linkStep_visited]
          simp

theorem scanLoop_nil (anchorsOf : String → List Anchor) (fetchO : String → Option String)
    (seed : String) (d : Bool) (maxPages fuel : Nat) (st : ScanState)
    (h : st.queue = []) :
    scanLoop anchorsOf fetchO seed d maxPages fuel st = st := by
  cases fuel with
  | zero => rfl
  | succ n =>
    unfold scanLoop
    rw [h]

theorem scanLoop_visited_le (anchorsOf : String → List Anchor)
    (fetchO : String → Option String) (seed : String) (d : Bool)
    (maxPages fuel : Nat) (st : ScanState) (h : st.visited.length ≤ maxPages) :
    (scanLoop anchorsOf fetchO seed d maxPages fuel st).visited.length ≤ maxPages := by
  induction fuel generalizing st with
  | zero => exact h
  | succ n ih =>
    unfold scanLoop
    cases hq : st.queue with
    | nil => exact h
    | cons u rest =>
      dsimp only
      by_cases hlt : st.visited.length < maxPages
      · rw [if_pos hlt]
        apply ih
        calc (scanIter anchorsOf fetchO seed d { st with queue := rest } u).visited.length
            ≤ st.visited.length + 1 := scanIter_visited_le anchorsOf fetchO seed d _ u
          _ ≤ maxPages := hlt
      · rw [if_neg hlt]
        exact h

theorem mapHas_false_notmem (m : List (String × String)) (k : String)
    (h : mapHas m k = false) : ∀ p ∈ m, ¬ p.1 = k := by
  intro p hp he
  have : mapHas m k = true := by
    unfold mapHas
    rw [List.any_eq_true]
    exact ⟨p, hp, by simp [he]⟩
  rw [h] at this
  cases this

theorem mapHas_append (m e : List (String × String)) (k : String)
    (h : mapHas m k = true) : mapHas (m ++ e) k = true := by
  unfold mapHas at h ⊢
  rw [List.any_append, h]
  rfl

theorem mapHas_append_self (m : List (String × String)) (k t : String) :
    mapHas (m ++ [(k, t)]) k = true := by
  unfold mapHas
  rw [List.any_append]
  simp

theorem nodup_append_singleton {α : Type _} (l : List α) (a : α) (hn : l.Nodup)
    (ha : a ∉ l) : (l ++ [a]).Nodup := by
  rw [List.nodup_append]
  refine ⟨hn, List.nodup_singleton a, ?_⟩
  intro x hx hxa
  rw [List.mem_singleton] at hxa
  subst hxa
  exact ha hx

theorem linkStep_keys_nodup (d : Bool) (h : List Char) (st : ScanState) (l : Link)
    (hn : (st.catalog.map Prod.fst).Nodup) :
    ((linkStep d h st l).catalog.map Prod.fst).Nodup := by
  have happ : mapHas st.catalog l.href = false →
      ((st.catalog ++ [(l.href, l.text)]).map Prod.fst).Nodup := by
    intro hmh
    rw [List.map_append]
    apply nodup_append_singleton _ _ hn
    intro hmem
    obtain ⟨p, hp, hfst⟩ := List.mem_map.mp hmem
    exact mapHas_false_notmem st.catalog l.href hmh p hp hfst
  rcases linkStep_cases d h st l with he | ⟨hmh, he | ⟨_, _, _, he⟩⟩ <;> rw [he]
  · exact hn
  · exact happ hmh
  · exact happ hmh

theorem foldl_linkStep_keys_nodup (d : Bool) (h : List Char) (links : List Link)
    (st : ScanState) (hn : (st.catalog.map Prod.fst).Nodup) :
    (((links.foldl (linkStep d h) st).catalog.map Prod.fst)).Nodup := by
  induction links generalizing st with
  | nil => exact hn
  | cons l ls ih =>
    rw [List.foldl_cons]
    exact ih _ (linkStep_keys_nodup d h st l hn)

theorem scanIter_keys_nodup (anchorsOf : String → List Anchor)
    (fetchO : String → Option String) (seed : String) (d : Bool)
    (st : ScanState) (u : String) (hn : (st.catalog.map Prod.fst).Nodup) :
    (((scanIter anchorsOf fetchO seed d st u).catalog.map Prod.fst)).Nodup := by
  unfold scanIter
  split
  · exact hn
  · split
    · exact hn
    · split
      · exact hn
      · split
        · exact hn
        · exact foldl_linkStep_keys_nodup _ _ _ _ hn

theorem scanLoop_keys_nodup (anchorsOf : String → List Anchor)
    (fetchO : String → Option String) (seed : String) (d : Bool)
    (maxPages fuel : Nat) (st : ScanState) (hn : (st.catalog.map Prod.fst).Nodup) :
    (((scanLoop anchorsOf fetchO seed d maxPages fuel st).catalog.map Prod.fst)).Nodup := by
  induction fuel generalizing st with
  | zero => exact hn
  | succ n ih =>
    unfold scanLoop
    cases hq : st.queue with
    | nil => exact hn
    | cons u rest =>
      dsimp only
      by_cases hlt : st.visited.length < maxPages
      · rw [if_pos hlt]
        exact ih _ (scanIter_keys_nodup anchorsOf fetchO seed d _ u hn)
      · rw [if_neg hlt]
        exact hn

theorem handleScan_eq (anchorsOf : String → List Anchor) (fetchO : String → Option String)
    (seed : String) (d : Bool) (fuel : Nat) (st : ScanState) (cat : List Link)
    (h : handleScan anchorsOf fetchO seed d fuel = some (st, cat)) :
    ¬ seed = "" ∧
    st = scanLoop anchorsOf fetchO seed d (if d then 50 else 1) fuel
      ⟨[seed], [], [], [], [seed]⟩ ∧
    cat = (if ¬ mapHas st.catalog seed = true
           then Link.mk sentinelLabel seed :: st.catalog.map (fun p => Link.mk p.2 p.1)
           else st.catalog.map (fun p => Link.mk p.2 p.1)) := by
  unfold handleScan at h
  by_cases hne : seed = ""
  · rw [if_pos hne] at h
    cases h
  · rw [if_neg hne] at h
    dsimp only at h
    injection h with h'
    injection h' with h1 h2
    refine ⟨hne, h1.symm, ?_⟩
    rw [← h2, ← h1]

theorem linkStep_foldInv (d : Bool) (h : List Char) (seed : String) (st : ScanState)
    (l : Link) (hI : FoldInv seed st) : FoldInv seed (linkStep d h st l) := by
  obtain ⟨h1, h2, h3⟩ := hI
  rcases linkStep_cases d h st l with he | ⟨hmh, he | ⟨hd, hnv, hnq, he⟩⟩ <;> rw [he]
  · exact ⟨h1, h2, h3⟩
  · refine ⟨h1, ?_, h3⟩
    intro x hx
    rcases h2 x hx with hc | hc
    · exact Or.inl hc
    · exact Or.inr (mapHas_append _ _ _ hc)
  · have hne : l.href ∉ st.enqueued := by
      intro hmem
      rcases h2 _ hmem with hc | hc
      · rw [hc] at hnv
        exact hnv h3
      · rw [hmh] at hc
        cases hc
    refine ⟨nodup_append_singleton _ _ h1 hne, ?_, h3⟩
    intro x hx
    rw [List.mem_append] at hx
    rcases hx with hx | hx
    · rcases h2 x hx with hc | hc
      · exact Or.inl hc
      · exact Or.inr (mapHas_append _ _ _ hc)
    · rw [List.mem_singleton] at hx
      subst hx
      exact Or.inr (mapHas_append_self _ _ _)

theorem foldl_linkStep_foldInv (d : Bool) (h : List Char) (seed : String)
    (links : List Link) (st : ScanState) (hI : FoldInv seed st) :
    FoldInv seed (links.foldl (linkStep d h) st) := by
  induction links generalizing st with
  | nil => exact hI
  | cons l ls ih =>
    rw [List.foldl_cons]
    exact ih _ (linkStep_foldInv d h seed st l hI)

theorem foldl_linkStep_queue_mem (d : Bool) (h : List Char) (links : List Link)
    (st : ScanState) (x : String)
    (hx : x ∈ (links.foldl (linkStep d h) st).queue) :
    x ∈ st.queue ∨ x ∉ st.visited := by
  induction links generalizing st with
  | nil => exact Or.inl hx
  | cons l ls ih =>
    rw [List.foldl_cons] at hx
    rcases ih _ hx with hq | hv
    · rcases linkStep_cases d h st l with he | ⟨_, he | ⟨_, hnv, _, he⟩⟩
      · rw [he] at hq
        exact Or.inl hq
      · rw [he] at hq
        exact Or.inl hq
      · rw [he] at hq
        dsimp only at hq
        rw [List.mem_append] at hq
        rcases hq with hq | hq
        · exact Or.inl hq
        · rw [List.mem_singleton] at hq
          subst hq
          exact Or.inr hnv
    · rw [linkStep_visited] at hv
      exact Or.inr hv

theorem scanIter_inv (anchorsOf : String → List Anchor) (fetchO : String → Option String)
    (seed : String) (d : Bool) (st : ScanState) (u : String) (rest : List String)
    (hq : st.queue = u :: rest) (hI : ScanInv seed st) :
    ScanInv seed (scanIter anchorsOf fetchO seed d { st with queue := rest } u) := by
  obtain ⟨h1, h2, h3, h4⟩ := hI
  have hrest_no_seed : seed ∉ rest := by
    intro hmem
    have hqm : seed ∈ st.queue := by
      rw [hq]
      exact List.mem_cons_of_mem _ hmem
    have hq1 := (h3 hqm).1
    rw [hq] at hq1
    injection hq1 with hu hr
    rw [hr] at hmem
    cases hmem
  have hu_or : u = seed ∨ seed ∈ st.visited := by
    by_cases hus : u = seed
    · exact Or.inl hus
    · right
      have hsq : seed ∉ st.queue := by
        intro hmem
        have hq1 := (h3 hmem).1
        rw [hq] at hq1
        injection hq1 with hu hr
        exact hus hu
      rcases h4 hsq with hc | hc
      · exact hc
      · rw [hq] at hc
        cases hc
  have hseed_of_u : u = seed → u ∈ st.visited → seed ∈ st.visited := by
    intro he hv
    rw [← he]
    exact hv
  unfold scanIter
  split
  · -- already visited: state unchanged apart from the popped queue
    rename_i hv
    refine ⟨h1, h2, ?_, ?_⟩
    · intro hmem
      exact absurd hmem hrest_no_seed
    · intro _
      left
      rcases hu_or with he | hc
      · exact hseed_of_u he hv
      · exact hc
  · rename_i hv
    split
    · -- fetch failed
      refine ⟨h1, h2, ?_, ?_⟩
      · intro hmem
        exact absurd hmem hrest_no_seed
      · intro _
        rcases hu_or with he | hc
        · have hqm : seed ∈ st.queue := by
            rw [hq, ← he]
            exact List.mem_cons_self u rest
          have hq1 := (h3 hqm).1
          rw [hq] at hq1
          simp only [List.cons.injEq] at hq1
          exact Or.inr hq1.2
        · exact Or.inl hc
    · -- fetch succeeded
      have hvis : ∀ w : String, w = u ∨ w ∈ st.visited →
          w ∈ ({ st with queue := rest } : ScanState).visited ++ [u] := by
        intro w hw
        rw [List.mem_append]
        rcases hw with hw | hw
        · right
          rw [hw]
          exact List.mem_singleton.mpr rfl
        · exact Or.inl hw
      split
      · -- link extraction failed
        refine ⟨h1, h2, ?_, ?_⟩
        · intro hmem
          exact absurd hmem hrest_no_seed
        · intro _
          left
          rcases hu_or with he | hc
          · exact hvis seed (Or.inl he.symm)
          · exact hvis seed (Or.inr hc)
      · rename_i links hlinks
        split
        · -- seed does not parse: links are not processed
          refine ⟨h1, h2, ?_, ?_⟩
          · intro hmem
            exact absurd hmem hrest_no_seed
          · intro _
            left
            rcases hu_or with he | hc
            · exact hvis seed (Or.inl he.symm)
            · exact hvis seed (Or.inr hc)
        · -- fold over the extracted links
          rename_i su hsu
          have hseedv : seed ∈ (({ st with queue := rest } : ScanState).visited ++ [u]) := by
            rcases hu_or with he | hc
            · exact hvis seed (Or.inl he.symm)
            · exact hvis seed (Or.inr hc)
          have hfold := foldl_linkStep_foldInv d su.host seed links
            ⟨rest, st.visited ++ [u], st.catalog, st.fetchAttempts ++ [u], st.enqueued⟩
            ⟨h1, h2, hseedv⟩
          obtain ⟨hf1, hf2, hf3⟩ := hfold
          refine ⟨hf1, hf2, ?_, ?_⟩
          · intro hmem
            rcases foldl_linkStep_queue_mem d su.host links _ seed hmem with hc | hc
            · exact absurd hc hrest_no_seed
            · exact absurd hseedv hc
          · intro _
            left
            rw [foldl_linkStep_visited]
            exact hseedv

theorem scanLoop_inv (anchorsOf : String → List Anchor) (fetchO : String → Option String)
    (seed : String) (d : Bool) (maxPages fuel : Nat) (st : ScanState)
    (hI : ScanInv seed st) :
    ScanInv seed (scanLoop anchorsOf fetchO seed d maxPages fuel st) := by
  induction fuel generalizing st with
  | zero => exact hI
  | succ n ih =>
    unfold scanLoop
    cases hq : st.queue with
    | nil => exact hI
    | cons u rest =>
      dsimp only
      by_cases hlt : st.visited.length < maxPages
      · rw [if_pos hlt]
        exact ih _ (scanIter_inv anchorsOf fetchO seed d st u rest hq hI)
      · rw [if_neg hlt]
        exact hI

/-! ### Same-host invariant of the catalog (for the crawl) -/
theorem procAnchor_host (base : URLRec) (a : Anchor) (l : Link)
    (h : procAnchor base a = some l) :
    ∃ w, parseCore l.href.data = some w ∧ w.host = base.host := by
  unfold procAnchor at h
  cases ha : a.href with
  | none => rw [ha] at h; cases h
  | some hs =>
    rw [ha] at h
    dsimp only at h
    split at h
    · cases h
    · split at h
      · cases h
      · split at h
        · cases h
        · split at h
          · cases h
          · split at h
            · cases h
            · rename_i r hr
              split at h
              · cases h
              · rename_i ru hru
                split at h
                · cases h
                · rename_i hhost
                  injection h with h'
                  subst h'
                  refine ⟨normalizeCore ru, ?_, ?_⟩
                  · show parseCore (normalizeUrl (String.mk r)).data = _
                    rw [normalizeUrl_of_parse (String.mk r) ru hru]
                    exact parseCore_hrefCore _ (normalizeCore_WF ru (parseCore_WF r ru hru))
                  · rw [normalizeCore_host]
                    exact not_not.mp hhost

theorem foldl_dedup_mem (ls acc : List Link) (l : Link)
    (h : l ∈ ls.foldl
      (fun acc l => if acc.any (fun x => x.href = l.href) then acc else acc ++ [l]) acc) :
    l ∈ acc ∨ l ∈ ls := by
  induction ls generalizing acc with
  | nil => exact Or.inl h
  | cons a tl ih =>
    rw [List.foldl_cons] at h
    rcases ih _ h with h0 | h0
    · by_cases ha : acc.any (fun x => x.href = a.href) = true
      · rw [if_pos ha] at h0
        exact Or.inl h0
      · rw [if_neg ha] at h0
        rw [List.mem_append] at h0
        rcases h0 with h0 | h0
        · exact Or.inl h0
        · rw [List.mem_singleton] at h0
          subst h0
          exact Or.inr (List.mem_cons_self _ _)
    · exact Or.inr (List.mem_cons_of_mem a h0)

theorem mem_dedupByHref (ls : List Link) (l : Link) (h : l ∈ dedupByHref ls) :
    l ∈ ls := by
  unfold dedupByHref at h
  rcases foldl_dedup_mem ls [] l h with h0 | h0
  · cases h0
  · exact h0

theorem extractNavLinks_host (anchors : List Anchor) (b : String) (base : URLRec)
    (ls : List Link) (hb : parseCore b.data = some base)
    (h : extractNavLinks anchors b = some ls) :
    ∀ l ∈ ls, ∃ w, parseCore l.href.data = some w ∧ w.host = base.host := by
  unfold extractNavLinks at h
  rw [hb] at h
  injection h with h'
  intro l hl
  rw [← h'] at hl
  have hl2 := mem_dedupByHref _ _ hl
  obtain ⟨a, _, hpa⟩ := List.mem_filterMap.mp hl2
  exact procAnchor_host base a l hpa

theorem linkStep_hostInv (d : Bool) (h : List Char) (hostS : List Char)
    (st : ScanState) (l : Link) (hI : HostInv hostS st)
    (hl : ∃ w, parseCore l.href.data = some w ∧ w.host = hostS) :
    HostInv hostS (linkStep d h st l) := by
  obtain ⟨hq, hc⟩ := hI
  rcases linkStep_cases d h st l with he | ⟨_, he | ⟨_, _, _, he⟩⟩ <;> rw [he]
  · exact ⟨hq, hc⟩
  · refine ⟨hq, ?_⟩
    intro p hp
    rw [List.mem_append] at hp
    rcases hp with hp | hp
    · exact hc p hp
    · rw [List.mem_singleton] at hp
      subst hp
      exact hl
  · constructor
    · intro x hx
      rw [List.mem_append] at hx
      rcases hx with hx | hx
      · exact hq x hx
      · rw [List.mem_singleton] at hx
        subst hx
        exact hl
    · intro p hp
      rw [List.mem_append] at hp
      rcases hp with hp | hp
      · exact hc p hp
      · rw [List.mem_singleton] at hp
        subst hp
        exact hl

theorem foldl_linkStep_hostInv (d : Bool) (h : List Char) (hostS : List Char)
    (links : List Link) (st : ScanState) (hI : HostInv hostS st)
    (hls : ∀ l ∈ links, ∃ w, parseCore l.href.data = some w ∧ w.host = hostS) :
    HostInv hostS (links.foldl (linkStep d h) st) := by
  induction links generalizing st with
  | nil => exact hI
  | cons l ls ih =>
    rw [List.foldl_cons]
    exact ih _ (linkStep_hostInv d h hostS st l hI (hls l (List.mem_cons_self l ls)))
      (fun x hx => hls x (List.mem_cons_of_mem l hx))

theorem scanIter_hostInv (anchorsOf : String → List Anchor)
    (fetchO : String → Option String) (seed : String) (d : Bool) (su : URLRec)
    (hseed : parseCore seed.data = some su) (st : ScanState) (u : String)
    (rest : List String) (hq : st.queue = u :: rest) (hI : HostInv su.host st) :
    HostInv su.host (scanIter anchorsOf fetchO seed d { st with queue := rest } u) := by
  obtain ⟨hqI, hcI⟩ := hI
  have hu : ∃ w, parseCore u.data = some w ∧ w.host = su.host := by
    apply hqI
    rw [hq]
    exact List.mem_cons_self u rest
  have hrest : ∀ x ∈ rest, ∃ w, parseCore x.data = some w ∧ w.host = su.host := by
    intro x hx
    apply hqI
    rw [hq]
    exact List.mem_cons_of_mem u hx
  unfold scanIter
  split
  · exact ⟨hrest, hcI⟩
  · split
    · exact ⟨hrest, hcI⟩
    · split
      · exact ⟨hrest, hcI⟩
      · rename_i links hlinks
        split
        · exact ⟨hrest, hcI⟩
        · rename_i su2 hsu2
          have hsu2e : su2 = su := by
            rw [hseed] at hsu2
            exact (Option.some.inj hsu2).symm
          subst hsu2e
          obtain ⟨w, hw, hwh⟩ := hu
          have hls := extractNavLinks_host (anchorsOf _) u w links hw hlinks
          apply foldl_linkStep_hostInv
          · exact ⟨hrest, hcI⟩
          · intro l hl
            obtain ⟨w2, hw2, hw2h⟩ := hls l hl
            exact ⟨w2, hw2, by rw [hw2h, hwh]⟩

theorem scanLoop_hostInv (anchorsOf : String → List Anchor)
    (fetchO : String → Option String) (seed : String) (d : Bool) (su : URLRec)
    (hseed : parseCore seed.data = some su) (maxPages fuel : Nat) (st : ScanState)
    (hI : HostInv su.host st) :
    HostInv su.host (scanLoop anchorsOf fetchO seed d maxPages fuel st) := by
  induction fuel generalizing st with
  | zero => exact hI
  | succ n ih =>
    unfold scanLoop
    cases hq : st.queue with
    | nil => exact hI
    | cons u rest =>
      dsimp only
      by_cases hlt : st.visited.length < maxPages
      · rw [if_pos hlt]
        exact ih _ (scanIter_hostInv anchorsOf fetchO seed d su hseed st u rest hq hI)
      · rw [if_neg hlt]
        exact hI

/-! ### First-iteration computations of the crawl loop -/
theorem scanLoop_attempts_unparseable (anchorsOf : String → List Anchor)
    (fetchO : String → Option String) (seed : String) (d : Bool)
    (maxPages n : Nat) (hp : parseCore seed.data = none) (hmax : 0 < maxPages) :
    (scanLoop anchorsOf fetchO seed d maxPages (n + 1)
      ⟨[seed], [], [], [], [seed]⟩).fetchAttempts = [seed] := by
  have hiter : ∃ stI : ScanState,
      scanIter anchorsOf fetchO seed d ⟨[], [], [], [], [seed]⟩ seed = stI ∧
      stI.queue = [] ∧ stI.fetchAttempts = [seed] := by
    unfold scanIter
    rw [if_neg (by simp : ¬ seed ∈ (⟨[], [], [], [], [seed]⟩ : ScanState).visited)]
    split
    · exact ⟨_, rfl, rfl, rfl⟩
    · rename_i html hf
      have he : extractNavLinks (anchorsOf html) seed = none := by
        unfold extractNavLinks
        rw [hp]
      rw [he]
      exact ⟨_, rfl, rfl, rfl⟩
  obtain ⟨stI, hIeq, hIq, hIa⟩ := hiter
  unfold scanLoop
  dsimp only
  rw [if_pos (show List.length ([] : List String) < maxPages from hmax)]
  rw [hIeq, scanLoop_nil _ _ _ _ _ _ _ hIq, hIa]

theorem scanLoop_shallow_visited (anchorsOf : String → List Anchor)
    (fetchO : String → Option String) (seed : String) (n : Nat) (html : String)
    (hf : fetchO seed = some html) :
    (scanLoop anchorsOf fetchO seed false 1 (n + 1)
      ⟨[seed], [], [], [], [seed]⟩).visited = [seed] := by
  have hiter : ∃ stI : ScanState,
      scanIter anchorsOf fetchO seed false ⟨[], [], [], [], [seed]⟩ seed = stI ∧
      stI.queue = [] ∧ stI.visited = [seed] := by
    unfold scanIter
    rw [if_neg (by simp : ¬ seed ∈ (⟨[], [], [], [], [seed]⟩ : ScanState).visited)]
    rw [hf]
    dsimp only
    split
    · exact ⟨_, rfl, rfl, rfl⟩
    · split
      · exact ⟨_, rfl, rfl, rfl⟩
      · refine ⟨_, rfl, ?_, ?_⟩
        · rw [foldl_linkStep_queue_shallow]
        · rw [foldl_linkStep_visited]
          rfl
  obtain ⟨stI, hIeq, hIq, hIv⟩ := hiter
  unfold scanLoop
  dsimp only
  rw [if_pos (show List.length ([] : List String) < 1 by simp)]
  rw [hIeq, scanLoop_nil _ _ _ _ _ _ _ hIq, hIv]

/-! ### Claim theorems -/
/-- Claim C1, counterexample: with selected links `[a, b, c]` and the fetch
of `b` failing, the worker pool output holds only the two success Documents
for `a` and `c`; no error-status Document for `b` appears at position 1 —
the failed link is dropped from the output, contradicting the claim. -/
theorem fetch_failure_document_dropped_cex :
    (handleFetchContent idTransform fetchFailB [linkA, linkB, linkC]
        [linkA, linkB, linkC]).map ScrapedPage.url
      = ["https://s.com/a", "https://s.com/c"] ∧
    (handleFetchContent idTransform fetchFailB [linkA, linkB, linkC]
        [linkA, linkB, linkC]).map ScrapedPage.status
      = [PageStatus.success, PageStatus.success] := by decide

/-- Claim C1, amended: for any completion order of the jobs (a permutation
of the selected links, whose hrefs are distinct), the output equals the
selected links filtered through the per-job outcome — every link whose
fetch succeeds yields a success-status Document in input order, a failed
link yields no Document at all (it is dropped, not surfaced as an
error-status Document), and a per-item failure never aborts the pool. -/
theorem ingestion_partial_failure_amended (t : String → String → String)
    (f : String → Option String) (links order : List Link) (hperm : order.Perm links)
    (hnodup : (links.map Link.href).Nodup) :
    handleFetchContent t f links order = links.filterMap (processJob t f) ∧
    ∀ p ∈ handleFetchContent t f links order, p.status = PageStatus.success := by
  have he := handleFetchContent_eq_filterMap t f links order hperm hnodup
  refine ⟨he, ?_⟩
  intro p hp
  rw [he] at hp
  obtain ⟨l, _, hj⟩ := List.mem_filterMap.mp hp
  exact processJob_status t f l p hj

/-- Witness for the amended C1 theorem at a concrete run. -/
theorem ingestion_partial_failure_amended_witness :
    handleFetchContent idTransform fetchFailB [linkA, linkB, linkC] [linkC, linkA, linkB]
      = [linkA, linkB, linkC].filterMap (processJob idTransform fetchFailB) :=
  (ingestion_partial_failure_amended idTransform fetchFailB [linkA, linkB, linkC]
    [linkC, linkA, linkB] (by decide) (by decide)).1

/-- Claim C3: the ingestion output is a function of the selected-links order
alone — any two completion orders of the workers give the same output list. -/
theorem ingestion_output_order_independent (t : String → String → String)
    (f : String → Option String) (links o1 o2 : List Link)
    (h1 : o1.Perm links) (h2 : o2.Perm links)
    (hnodup : (links.map Link.href).Nodup) :
    handleFetchContent t f links o1 = handleFetchContent t f links o2 := by
  rw [handleFetchContent_eq_filterMap t f links o1 h1 hnodup,
    handleFetchContent_eq_filterMap t f links o2 h2 hnodup]

/-- Witness for the C3 theorem at a concrete pair of completion orders. -/
theorem ingestion_output_order_independent_witness :
    handleFetchContent idTransform fetchOk [linkA, linkB] [linkB, linkA]
      = handleFetchContent idTransform fetchOk [linkA, linkB] [linkA, linkB] :=
  ingestion_output_order_independent idTransform fetchOk [linkA, linkB] [linkB, linkA]
    [linkA, linkB] (by decide) (by decide) (by decide)

/-- Claim C2, counterexample: the seed string does not parse as a URL, yet
the run does not fail before network access — the crawl attempts a fetch of
the raw seed (the fetch-attempt history is non-empty). -/
theorem invalid_seed_still_fetches_cex :
    parseCore ("not a url").data = none ∧
    (handleScan anchorsNone fetchOk "not a url" false 3).map
      (fun p => p.1.fetchAttempts) = some ["not a url"] := by decide

/-- Claim C2, amended: no seed validation exists; for every non-empty seed
that does not parse as a URL, the crawl still performs exactly one fetch
attempt, on the raw seed string (URL parse failures surface only later,
inside link extraction, and are caught per page). -/
theorem invalid_seed_fetch_attempted_amended (anchorsOf : String → List Anchor)
    (fetchO : String → Option String) (seed : String) (d : Bool) (fuel : Nat)
    (st : ScanState) (cat : List Link)
    (h : handleScan anchorsOf fetchO seed d fuel = some (st, cat))
    (hp : parseCore seed.data = none) (hfuel : 1 ≤ fuel) :
    st.fetchAttempts = [seed] := by
  obtain ⟨hne, hst, _⟩ := handleScan_eq anchorsOf fetchO seed d fuel st cat h
  cases fuel with
  | zero => omega
  | succ n =>
    rw [hst]
    exact scanLoop_attempts_unparseable anchorsOf fetchO seed d _ n hp
      (by cases d <;> decide)

/-- Witness for the amended C2 theorem at a concrete run. -/
theorem invalid_seed_fetch_attempted_amended_witness :
    (⟨[], ["not a url"], [], ["not a url"], ["not a url"]⟩ : ScanState).fetchAttempts
      = ["not a url"] :=
  invalid_seed_fetch_attempted_amended anchorsNone fetchOk "not a url" false 3
    ⟨[], ["not a url"], [], ["not a url"], ["not a url"]⟩
    [⟨sentinelLabel, "not a url"⟩] (by decide) (by decide) (by decide)

/-- Claim C4, counterexample: with seed `https://x.com/docs/` and a page
linking to `/docs`, the final catalog holds the prepended sentinel entry for
the raw seed and the normalized entry, whose normalized hrefs are equal —
two entries with equal normalized href. -/
theorem catalog_normalized_duplicate_cex :
    (handleScan anchorsDocs fetchOk "https://x.com/docs/" false 3).map
      (fun p => p.2.map (fun l => normalizeUrl l.href))
      = some ["https://x.com/docs", "https://x.com/docs"] := by decide

/-- Claim C4, amended: the final catalog (sentinel included) has pairwise
distinct raw hrefs — dedup holds for the raw strings; it can fail for the
normalized ones only through the sentinel seed entry. -/
theorem catalog_raw_hrefs_nodup_amended (anchorsOf : String → List Anchor)
    (fetchO : String → Option String) (seed : String) (d : Bool) (fuel : Nat)
    (st : ScanState) (cat : List Link)
    (h : handleScan anchorsOf fetchO seed d fuel = some (st, cat)) :
    (cat.map Link.href).Nodup := by
  obtain ⟨hne, hst, hcat⟩ := handleScan_eq anchorsOf fetchO seed d fuel st cat h
  have hnst : (st.catalog.map Prod.fst).Nodup := by
    rw [hst]
    exact scanLoop_keys_nodup _ _ _ _ _ _ _ (by simp)
  have hmapmap : (st.catalog.map (fun p => Link.mk p.2 p.1)).map Link.href
      = st.catalog.map Prod.fst := by
    rw [List.map_map]
    rfl
  rw [hcat]
  by_cases hmh : ¬ mapHas st.catalog seed = true
  · rw [if_pos hmh, List.map_cons, hmapmap]
    apply List.nodup_cons.mpr
    constructor
    · intro hmem
      obtain ⟨p, hp, hfst⟩ := List.mem_map.mp hmem
      have hfalse : mapHas st.catalog seed = false := by
        cases hb : mapHas st.catalog seed
        · rfl
        · exact absurd hb hmh
      exact mapHas_false_notmem st.catalog seed hfalse p hp hfst
    · exact hnst
  · rw [if_neg hmh, hmapmap]
    exact hnst

/-- Witness for the amended C4 theorem at a concrete run. -/
theorem catalog_raw_hrefs_nodup_amended_witness :
    (([⟨sentinelLabel, "https://x.com/"⟩, ⟨"A", "https://x.com/a"⟩] : List Link).map
      Link.href).Nodup :=
  catalog_raw_hrefs_nodup_amended anchorsA fetchOk "https://x.com/" false 3
    ⟨[], ["https://x.com/"], [("https://x.com/a", "A")], ["https://x.com/"],
     ["https://x.com/"]⟩
    [⟨sentinelLabel, "https://x.com/"⟩, ⟨"A", "https://x.com/a"⟩] (by decide)

/-- Claim C5: when the seed parses, every entry of the final catalog
(sentinel included) has an href that parses to the hostname of the seed —
no catalog entry violates the same-host filter. -/
theorem catalog_same_host (anchorsOf : String → List Anchor)
    (fetchO : String → Option String) (seed : String) (d : Bool) (fuel : Nat)
    (su : URLRec) (st : ScanState) (cat : List Link)
    (hseed : parseCore seed.data = some su)
    (h : handleScan anchorsOf fetchO seed d fuel = some (st, cat)) :
    ∀ l ∈ cat, ∃ w, parseCore l.href.data = some w ∧ w.host = su.host := by
  obtain ⟨hne, hst, hcat⟩ := handleScan_eq anchorsOf fetchO seed d fuel st cat h
  have hinv : HostInv su.host st := by
    rw [hst]
    apply scanLoop_hostInv _ _ _ _ _ hseed
    constructor
    · intro x hx
      rw [List.mem_singleton] at hx
      subst hx
      exact ⟨su, hseed, rfl⟩
    · intro p hp
      cases hp
  intro l hl
  rw [hcat] at hl
  by_cases hmh : ¬ mapHas st.catalog seed = true
  · rw [if_pos hmh] at hl
    rcases List.mem_cons.mp hl with hl0 | hl0
    · subst hl0
      exact ⟨su, hseed, rfl⟩
    · obtain ⟨p, hp, hpe⟩ := List.mem_map.mp hl0
      subst hpe
      exact hinv.2 p hp
  · rw [if_neg hmh] at hl
    obtain ⟨p, hp, hpe⟩ := List.mem_map.mp hl
    subst hpe
    exact hinv.2 p hp

/-- Witness for the C5 theorem at a concrete run. -/
theorem catalog_same_host_witness :
    ∃ w, parseCore ("https://x.com/a").data = some w
      ∧ w.host = ['x', '.', 'c', 'o', 'm'] :=
  catalog_same_host anchorsA fetchOk "https://x.com/" false 3
    ⟨['h', 't', 't', 'p', 's'], ['x', '.', 'c', 'o', 'm'], ['/'], [], []⟩
    ⟨[], ["https://x.com/"], [("https://x.com/a", "A")], ["https://x.com/"],
     ["https://x.com/"]⟩
    [⟨sentinelLabel, "https://x.com/"⟩, ⟨"A", "https://x.com/a"⟩]
    (by decide) (by decide) ⟨"A", "https://x.com/a"⟩ (by decide)

/-- Claim C6, counterexample: in shallow mode with the seed fetch failing,
zero pages are visited — not exactly one, and the visited count is not
positive. -/
theorem shallow_zero_visits_cex :
    (handleScan anchorsNone fetchNone "https://x.com/" false 3).map
      (fun p => p.1.visited.length) = some 0 := by decide

/-- Claim C6, amended: the visited count never exceeds the page budget (1
shallow, 50 deep); in shallow mode it equals 1 exactly when the seed fetch
succeeds (a failing seed fetch yields zero visits). -/
theorem visited_budget_amended (anchorsOf : String → List Anchor)
    (fetchO : String → Option String) (seed : String) (d : Bool) (fuel : Nat)
    (st : ScanState) (cat : List Link)
    (h : handleScan anchorsOf fetchO seed d fuel = some (st, cat)) :
    st.visited.length ≤ (if d then 50 else 1) ∧
    (d = false → 1 ≤ fuel → (∃ html, fetchO seed = some html) →
      st.visited.length = 1) := by
  obtain ⟨hne, hst, _⟩ := handleScan_eq anchorsOf fetchO seed d fuel st cat h
  constructor
  · rw [hst]
    exact scanLoop_visited_le _ _ _ _ _ _ _ (by simp)
  · intro hd hfuel hex
    obtain ⟨html, hf⟩ := hex
    subst hd
    cases fuel with
    | zero => omega
    | succ n =>
      rw [hst]
      show (scanLoop anchorsOf fetchO seed false 1 (n + 1)
        ⟨[seed], [], [], [], [seed]⟩).visited.length = 1
      rw [scanLoop_shallow_visited anchorsOf fetchO seed n html hf]
      rfl

/-- Witness for the amended C6 theorem at a concrete run. -/
theorem visited_budget_amended_witness :
    (⟨[], ["https://x.com/"], [("https://x.com/a", "A")], ["https://x.com/"],
      ["https://x.com/"]⟩ : ScanState).visited.length = 1 :=
  (visited_budget_amended anchorsA fetchOk "https://x.com/" false 3
    ⟨[], ["https://x.com/"], [("https://x.com/a", "A")], ["https://x.com/"],
     ["https://x.com/"]⟩
    [⟨sentinelLabel, "https://x.com/"⟩, ⟨"A", "https://x.com/a"⟩]
    (by decide)).2 rfl (by decide) ⟨"<html>", rfl⟩

/-- Claim C7, counterexample: with seed `https://x.com/docs/` and pages
linking to `/docs`, both the raw seed and its normalized variant enter the
queue — the same URL, identified by its normalized form, enters the
frontier twice in one run. -/
theorem enqueued_normalized_twice_cex :
    (handleScan anchorsDocs fetchOk "https://x.com/docs/" true 5).map
      (fun p => p.1.enqueued.map normalizeUrl)
      = some ["https://x.com/docs", "https://x.com/docs"] := by decide

/-- Claim C7, amended: identified by the exact string, every URL enters the
frontier queue at most once per run (the enqueue history has no
duplicates); only distinct raw strings sharing a normalized form — the raw
seed versus a normalized extracted link — can each enter once. -/
theorem enqueue_once_amended (anchorsOf : String → List Anchor)
    (fetchO : String → Option String) (seed : String) (d : Bool) (fuel : Nat)
    (st : ScanState) (cat : List Link)
    (h : handleScan anchorsOf fetchO seed d fuel = some (st, cat)) :
    st.enqueued.Nodup := by
  obtain ⟨hne, hst, _⟩ := handleScan_eq anchorsOf fetchO seed d fuel st cat h
  rw [hst]
  have hinit : ScanInv seed ⟨[seed], [], [], [], [seed]⟩ := by
    refine ⟨by simp, ?_, ?_, ?_⟩
    · intro x hx
      left
      simpa using hx
    · intro _
      exact ⟨rfl, rfl⟩
    · intro hns
      exact absurd (List.mem_singleton.mpr rfl) hns
  exact (scanLoop_inv anchorsOf fetchO seed d _ fuel _ hinit).1

/-- Witness for the amended C7 theorem at a concrete run. -/
theorem enqueue_once_amended_witness :
    (["https://x.com/"] : List String).Nodup :=
  enqueue_once_amended anchorsA fetchOk "https://x.com/" false 3
    ⟨[], ["https://x.com/"], [("https://x.com/a", "A")], ["https://x.com/"],
     ["https://x.com/"]⟩
    [⟨sentinelLabel, "https://x.com/"⟩, ⟨"A", "https://x.com/a"⟩] (by decide)

/-- Claim C8, counterexample: a document-relative href is not rewritten at
all — `href="p.html"` against base `https://x.com/docs/` passes through
unchanged instead of being resolved to an absolute URL. -/
theorem relative_href_not_rewritten_cex :
    makeLinksAbsolute "<a href=\"p.html\">x</a>" "https://x.com/docs/"
      = "<a href=\"p.html\">x</a>" := by decide

/-- Claim C8, amended: the rewriter resolves root-relative src and href
values against the origin of the base URL (the stated img example holds),
and document-relative src values to origin + slash + dirname(path) + slash
+ value (note the doubled slash this produces); document-relative href
values and values starting with `http` pass through unchanged. -/
theorem makeLinksAbsolute_behavior_amended :
    makeLinksAbsolute "<img src=\"/a.png\">" "https://x.com/docs/"
      = "<img src=\"https://x.com/a.png\">" ∧
    makeLinksAbsolute "<a href=\"/b\">x</a>" "https://x.com/docs/"
      = "<a href=\"https://x.com/b\">x</a>" ∧
    makeLinksAbsolute "<img src=\"img.png\">" "https://x.com/docs/page.html"
      = "<img src=\"https://x.com//docs/img.png\">" ∧
    makeLinksAbsolute "<a href=\"p.html\">y</a>" "https://x.com/docs/"
      = "<a href=\"p.html\">y</a>" ∧
    makeLinksAbsolute "<img src=\"https://y.com/i.png\">" "https://x.com/docs/"
      = "<img src=\"https://y.com/i.png\">" :=
  ⟨by decide, by decide, by decide, by decide, by decide⟩

/-- Claim C9, counterexample: on a path ending in a double slash the
normalization strips only one slash per application, so a second
application changes the result again — normalization is not idempotent. -/
theorem normalizeUrl_not_idempotent_cex :
    normalizeUrl (normalizeUrl "https://x.com/a//") ≠ normalizeUrl "https://x.com/a//" := by
  decide

/-- Claim C9, amended: normalization is idempotent on every input that is
unparseable (returned unchanged) or whose once-normalized path does not end
with a non-root trailing slash — that is, on every URL whose path does not
end in a double slash (except the bare double-slash root). -/
theorem normalizeUrl_idem_amended (s : String)
    (h : stableAfterNormalize (parseCore s.data) = true) :
    normalizeUrl (normalizeUrl s) = normalizeUrl s := normalizeUrl_idem_aux s h

/-- Witness for the amended C9 theorem at a concrete URL. -/
theorem normalizeUrl_idem_amended_witness :
    normalizeUrl (normalizeUrl "https://x.com/docs/") = normalizeUrl "https://x.com/docs/" :=
  normalizeUrl_idem_amended "https://x.com/docs/" (by decide)

/-- Claim C10: the rewriter only reacts to the double-quoted patterns; any
input containing neither the literal trigger src-equals-quote nor
href-equals-quote — single-quoted or unquoted attributes included — is
returned character-for-character unchanged. -/
theorem rewriter_untouched_without_trigger (s base : String)
    (h1 : hasInfix ['s', 'r', 'c', '=', '"'] s.data = false)
    (h2 : hasInfix ['h', 'r', 'e', 'f', '=', '"'] s.data = false) :
    makeLinksAbsolute s base = s := by
  unfold makeLinksAbsolute
  split
  · rfl
  · dsimp only
    rw [rwAttr_id_of_no_trigger ['s', 'r', 'c'] rootRel _ s.data (by exact h1)]
    rw [rwAttr_id_of_no_trigger ['s', 'r', 'c'] docRel _ s.data (by exact h1)]
    rw [rwAttr_id_of_no_trigger ['h', 'r', 'e', 'f'] rootRel _ s.data (by exact h2)]

/-- Witness for the C10 theorem: an unquoted src attribute passes through
unchanged. -/
theorem rewriter_untouched_without_trigger_witness :
    makeLinksAbsolute "<img src=/a.png>" "https://x.com/docs/"
      = "<img src=/a.png>" :=
  rewriter_untouched_without_trigger _ _ (by decide) (by decide)

end DocuScraper
